import Mathlib

/-!
Verification of the folly futures combinator layer (folly/futures/Future-inl.h).

We shallowly embed the combinator aggregators as state machines over a shared
context, exactly following the C++ source.  Concurrency is modelled by a
completion schedule: a list of input-future indices in the order in which their
callbacks run.  Each callback body runs atomically (the C++ code guards every
cross-callback decision with a single atomic exchange / fetch_add, so the
per-callback granularity is faithful for the properties proved here).

A C++ Try<T> holds either a value or an exception_wrapper; exceptions are
modelled as Nat codes.
-/

inductive Try (α : Type) where
  | val : α → Try α
  | exn : Nat → Try α
deriving DecidableEq, Repr

namespace Try

/-- Try::hasException() -/
def hasException {α : Type} : Try α → Bool
  | .val _ => false
  | .exn _ => true

/-- Try::hasValue() -/
def hasValue {α : Type} : Try α → Bool
  | .val _ => true
  | .exn _ => false

/-- Try::exception(); calling it on a value-holding Try is invalid in C++
(we return a junk code 0, and prove such calls unreachable where it matters). -/
def exception {α : Type} : Try α → Nat
  | .val _ => 0
  | .exn e => e

/-- Try::value(); calling it on an exception-holding Try throws in C++
(junk default, proved unreachable where it matters). -/
def valueD {α : Type} [Inhabited α] : Try α → α
  | .val v => v
  | .exn _ => default

end Try

/-!
## collectAll (iterator form), Future-inl.h lines 1322-1344

The shared CollectAllContext holds a results vector of n Trys.
mapSetCallback (lines 1291-1298) installs on input future i a callback
storing its Try at slot i.  The context destructor — which runs exactly when
the last callback has run and released its shared_ptr — fulfils the promise
with the whole vector via setValue.  A slot never written keeps its
default-constructed (empty) Try, modelled as none.
-/

/-- Callback of input future i: ctx->results[i] = std::move(t). -/
def collectAllStep {n : Nat} {α : Type} (res : Fin n → Try α)
    (slots : Fin n → Option (Try α)) (i : Fin n) : Fin n → Option (Try α) :=
  Function.update slots i (some (res i))

/-- Contents of the results vector after the callbacks in the schedule ran. -/
def collectAllSlots {n : Nat} {α : Type} (res : Fin n → Try α)
    (order : List (Fin n)) : Fin n → Option (Try α) :=
  order.foldl (collectAllStep res) (fun _ => none)

/-- Outcome of the aggregate future: the context destructor runs (and
setValue fires) exactly when every callback has run. -/
def collectAllOutcome {n : Nat} {α : Type} (res : Fin n → Try α)
    (order : List (Fin n)) : Option (Try (List (Option (Try α)))) :=
  if (∀ i, i ∈ order) then
    some (Try.val (List.ofFn (collectAllSlots res order)))
  else
    none

theorem collectAllSlots_foldl {n : Nat} {α : Type} (res : Fin n → Try α) :
    ∀ (order : List (Fin n)) (init : Fin n → Option (Try α)) (i : Fin n),
      order.foldl (collectAllStep res) init i
        = if i ∈ order then some (res i) else init i := by
  intro order
  induction order with
  | nil => intro init i; simp
  | cons j rest ih =>
    intro init i
    by_cases hmem : i ∈ rest
    · simp [List.foldl_cons, ih, hmem]
    · by_cases hij : i = j
      · subst hij
        simp [List.foldl_cons, ih, hmem, collectAllStep]
      · simp [List.foldl_cons, ih, hmem, collectAllStep,
          Function.update_noteq hij, hij]

theorem collectAllSlots_mem {n : Nat} {α : Type} (res : Fin n → Try α)
    (order : List (Fin n)) (i : Fin n) (h : i ∈ order) :
    collectAllSlots res order i = some (res i) := by
  unfold collectAllSlots
  rw [collectAllSlots_foldl]
  simp [h]

/-- C1: for every list of futures f1..fn, collectAll returns a future that
completes only after every input has completed, and its result is a vector of
exactly n Trys in which position i holds exactly the result of fi (input
order, not completion order); the future returned by collectAll never
completes with an error of its own. -/
theorem collectAll_spec {n : Nat} {α : Type} (res : Fin n → Try α)
    (order : List (Fin n)) :
    ((∀ i, i ∈ order) →
        collectAllOutcome res order
          = some (Try.val (List.ofFn (fun i => some (res i)))))
    ∧ (¬ (∀ i, i ∈ order) → collectAllOutcome res order = none)
    ∧ (∀ e, collectAllOutcome res order ≠ some (Try.exn e)) := by
  refine ⟨?_, ?_, ?_⟩
  · intro hall
    unfold collectAllOutcome
    rw [if_pos hall]
    have hfun : collectAllSlots res order = fun i => some (res i) :=
      funext (fun i => collectAllSlots_mem res order i (hall i))
    rw [hfun]
  · intro hnot
    unfold collectAllOutcome
    rw [if_neg hnot]
  · intro e
    unfold collectAllOutcome
    by_cases hall : ∀ i, i ∈ order
    · rw [if_pos hall]; simp
    · rw [if_neg hall]; simp

theorem collectAll_spec_witness :
    (∀ i : Fin 2, i ∈ ([1, 0] : List (Fin 2)))
    ∧ collectAllOutcome ![Try.val (10 : Nat), Try.exn 3] [1, 0]
        = some (Try.val (List.ofFn
            (fun i => some (![Try.val (10 : Nat), Try.exn 3] i)))) :=
  ⟨by decide, (collectAll_spec ![Try.val (10 : Nat), Try.exn 3] [1, 0]).1
    (by decide)⟩

/-!
## collect (iterator form), Future-inl.h lines 1358-1418

CollectContext holds a vector of Optional<T>, a promise, and an atomic
threw flag.  Each callback: on an exception, threw.exchange(true) — the
first error wins and fulfils the promise with that error; on a value, the
value is stored only while threw is still false.  The destructor (after the
last callback) does threw.exchange(true) and, if it was false, fulfils with
the collected values.
-/

structure CollectSt (n : Nat) (α : Type) where
  threw : Bool
  slots : Fin n → Option α
  promise : Option (Try (List α))

/-- Callback installed by collect via mapSetCallback (lines 1408-1416). -/
def collectStep {n : Nat} {α : Type} (res : Fin n → Try α)
    (st : CollectSt n α) (i : Fin n) : CollectSt n α :=
  match res i with
  | .exn e =>
      -- if (!ctx->threw.exchange(true)) p.setException(t.exception())
      if st.threw then st
      else { threw := true, slots := st.slots, promise := some (Try.exn e) }
  | .val v =>
      -- else if (!ctx->threw) ctx->setPartialResult(i, t)
      if st.threw then st
      else { st with slots := Function.update st.slots i (some v) }

def collectInit (n : Nat) (α : Type) : CollectSt n α :=
  { threw := false, slots := fun _ => none, promise := none }

def collectRun {n : Nat} {α : Type} (res : Fin n → Try α)
    (order : List (Fin n)) : CollectSt n α :=
  order.foldl (collectStep res) (collectInit n α)

/-- Outcome of the aggregate future; the context destructor (lines
1377-1385) runs when every callback has run: if (!threw.exchange(true)) it
maps the Optionals to values and fulfils via setValue. -/
def collectOutcome {n : Nat} {α : Type} [Inhabited α] (res : Fin n → Try α)
    (order : List (Fin n)) : Option (Try (List α)) :=
  let st := collectRun res order
  if (∀ i, i ∈ order) then
    if st.threw then st.promise
    else some (Try.val (List.ofFn (fun i => (st.slots i).getD default)))
  else st.promise

def isExnB {α : Type} (t : Try α) : Bool := t.hasException

theorem collectRun_threw_frozen {n : Nat} {α : Type} (res : Fin n → Try α) :
    ∀ (order : List (Fin n)) (st : CollectSt n α), st.threw = true →
      order.foldl (collectStep res) st = st := by
  intro order
  induction order with
  | nil => intro st _; rfl
  | cons j rest ih =>
    intro st hthrew
    have hstep : collectStep res st j = st := by
      unfold collectStep
      cases res j <;> simp [hthrew]
    rw [List.foldl_cons, hstep, ih st hthrew]

theorem collectRun_first_error {n : Nat} {α : Type} (res : Fin n → Try α) :
    ∀ (order : List (Fin n)) (st : CollectSt n α),
      st.threw = false → st.promise = none →
      (match order.find? (fun i => isExnB (res i)) with
       | some j =>
          (order.foldl (collectStep res) st).threw = true
          ∧ (order.foldl (collectStep res) st).promise
              = some (Try.exn ((res j).exception))
       | none =>
          (order.foldl (collectStep res) st).threw = false
          ∧ (order.foldl (collectStep res) st).promise = none) := by
  intro order
  induction order with
  | nil => intro st h1 h2; simp [h1, h2]
  | cons j rest ih =>
    intro st h1 h2
    cases hres : res j with
    | exn e =>
      have hfind : (j :: rest).find? (fun i => isExnB (res i)) = some j := by
        rw [List.find?_cons]
        simp [hres, isExnB, Try.hasException]
      rw [hfind]
      have hstep : collectStep res st j
          = { threw := true, slots := st.slots, promise := some (Try.exn e) } := by
        unfold collectStep
        rw [hres]
        simp [h1]
      rw [List.foldl_cons, hstep,
        collectRun_threw_frozen res rest _ rfl]
      simp [hres, Try.exception]
    | val v =>
      have hfind : (j :: rest).find? (fun i => isExnB (res i))
          = rest.find? (fun i => isExnB (res i)) := by
        rw [List.find?_cons]
        simp [hres, isExnB, Try.hasException]
      rw [hfind]
      have hstep : collectStep res st j
          = { st with slots := Function.update st.slots j (some v) } := by
        unfold collectStep
        rw [hres]
        simp [h1]
      rw [List.foldl_cons, hstep]
      exact ih _ (by simp [h1]) (by simp [h2])

theorem collectRun_slots_no_error {n : Nat} {α : Type} [Inhabited α]
    (res : Fin n → Try α) :
    ∀ (order : List (Fin n)) (st : CollectSt n α),
      (∀ i ∈ order, (res i).hasException = false) → st.threw = false →
      ∀ i, (order.foldl (collectStep res) st).slots i
        = if i ∈ order then some ((res i).valueD) else st.slots i := by
  intro order
  induction order with
  | nil => intro st _ _ i; simp
  | cons j rest ih =>
    intro st hne h1 i
    cases hres : res j with
    | exn e =>
      have hx := hne j (List.mem_cons_self j rest)
      rw [hres] at hx
      simp [Try.hasException] at hx
    | val v =>
      have hstep : collectStep res st j
          = { st with slots := Function.update st.slots j (some v) } := by
        unfold collectStep
        rw [hres]
        simp [h1]
      rw [List.foldl_cons, hstep]
      have hrec := ih { st with slots := Function.update st.slots j (some v) }
        (fun i hi => hne i (List.mem_cons_of_mem j hi)) (by simp [h1]) i
      rw [hrec]
      by_cases hmem : i ∈ rest
      · simp [hmem]
      · by_cases hij : i = j
        · subst hij
          simp [hmem, hres, Try.valueD, Function.update_same]
        · simp [hmem, hij, Function.update_noteq hij]

/-- C2: for every list of futures f1..fn, collect completes with the first
error in completion order if any input completes with an error (exactly one
error wins, and later errors or values do not change the outcome), and
otherwise completes with the vector of all n values in input order. -/
theorem collect_spec {n : Nat} {α : Type} [Inhabited α] (res : Fin n → Try α)
    (order : List (Fin n)) (hall : ∀ i, i ∈ order) :
    (∀ j e, order.find? (fun i => isExnB (res i)) = some j →
        res j = Try.exn e → collectOutcome res order = some (Try.exn e))
    ∧ (order.find? (fun i => isExnB (res i)) = none →
        collectOutcome res order
          = some (Try.val (List.ofFn (fun i => (res i).valueD)))) := by
  have hbase := collectRun_first_error res order (collectInit n α) rfl rfl
  constructor
  · intro j e hfind hres
    rw [hfind] at hbase
    unfold collectOutcome
    simp only [collectRun]
    rw [if_pos hall, if_pos hbase.1, hbase.2, hres]
    rfl
  · intro hfind
    rw [hfind] at hbase
    unfold collectOutcome
    simp only [collectRun]
    rw [if_pos hall, if_neg (by rw [hbase.1]; exact Bool.false_ne_true)]
    have hne : ∀ i ∈ order, (res i).hasException = false := by
      intro i hi
      have := List.find?_eq_none.mp hfind i hi
      simpa [isExnB] using this
    have hslots := collectRun_slots_no_error res order (collectInit n α)
      hne rfl
    have hfun : ∀ i,
        ((List.foldl (collectStep res) (collectInit n α) order).slots i).getD
            default
          = (res i).valueD := by
      intro i
      rw [hslots i, if_pos (hall i)]
      rfl
    exact congrArg (fun g => some (Try.val (List.ofFn g))) (funext hfun)

theorem collect_spec_witness :
    (∀ i : Fin 2, i ∈ ([1, 0] : List (Fin 2)))
    ∧ ([1, 0] : List (Fin 2)).find?
        (fun i => isExnB (![Try.exn 7, Try.val (5 : Nat)] i)) = some 0
    ∧ ![Try.exn 7, Try.val (5 : Nat)] 0 = Try.exn 7
    ∧ collectOutcome ![Try.exn 7, Try.val (5 : Nat)] [1, 0]
        = some (Try.exn 7) :=
  ⟨by decide, by decide, by decide,
    (collect_spec ![Try.exn 7, Try.val (5 : Nat)] [1, 0] (by decide)).1
      0 7 (by decide) (by decide)⟩

/-!
## within, Future-inl.h lines 420-481 and 1768-1778

withinImplementation builds a Context with an atomic token.  Two callbacks
race: the source future's callback (lines 444-448) and the timekeeper's
after(dur) callback (lines 463-478).  Whoever exchanges the token from
false to true fulfils the promise; the source arm with the source's Try,
the timer arm with the stored exception e (or the timer's own error if the
timekeeper future failed).  A schedule is the order in which the two
callbacks run; an absent event models an arm that never completes.
-/

inductive WithinEvent where
  | source : WithinEvent
  | timer : WithinEvent
deriving DecidableEq, Repr

structure WithinSt (α : Type) where
  token : Bool
  promise : Option (Try α)
  fulfilledBy : Option WithinEvent
  fulfilCount : Nat

def withinInit (α : Type) : WithinSt α :=
  { token := false, promise := none, fulfilledBy := none, fulfilCount := 0 }

/-- One callback of the within Context.  t is the source future's result,
tt the timekeeper future's result, e the stored timeout exception. -/
def withinStep {α : Type} (t : Try α) (tt : Try Unit) (e : Nat)
    (st : WithinSt α) (ev : WithinEvent) : WithinSt α :=
  match ev with
  | .source =>
      -- if (!ctx->token.exchange(true)) ctx->promise.setTry(std::move(t))
      if st.token then { st with token := true }
      else { token := true, promise := some t,
             fulfilledBy := some .source, fulfilCount := st.fulfilCount + 1 }
  | .timer =>
      -- lockedCtx->thisFuture.raise(FutureTimeout());
      -- if (!lockedCtx->token.exchange(true))
      --   setException(timer error or stored exception)
      if st.token then { st with token := true }
      else { token := true,
             promise := some (match tt with
               | .exn te => Try.exn te
               | .val _ => Try.exn e),
             fulfilledBy := some .timer, fulfilCount := st.fulfilCount + 1 }

def withinRun {α : Type} (t : Try α) (tt : Try Unit) (e : Nat)
    (evs : List WithinEvent) : WithinSt α :=
  evs.foldl (withinStep t tt e) (withinInit α)

theorem withinRun_token_frozen {α : Type} (t : Try α) (tt : Try Unit)
    (e : Nat) :
    ∀ (evs : List WithinEvent) (st : WithinSt α), st.token = true →
      evs.foldl (withinStep t tt e) st
        = { st with token := true } := by
  intro evs
  induction evs with
  | nil => intro st h; cases st; simp_all
  | cons ev rest ih =>
    intro st h
    have hstep : withinStep t tt e st ev = { st with token := true } := by
      unfold withinStep
      cases ev <;> simp [h]
    rw [List.foldl_cons, hstep, ih _ rfl]

/-- C3: for every source future f and duration d, the result of
within(f, d) is fulfilled by exactly one of the two arms: with f's result
when f completes before d elapses, and with the Timeout error otherwise;
the source arm and the timer arm never both fulfil the result.
A schedule [source, timer] means f completed before the timer fired;
[timer, ...] means the duration elapsed first. -/
theorem within_spec {α : Type} (t : Try α) (tt : Try Unit) (e : Nat) :
    ((withinRun t tt e [.source, .timer]).promise = some t
      ∧ (withinRun t tt e [.source, .timer]).fulfilledBy
          = some WithinEvent.source)
    ∧ (tt = Try.val () →
        (withinRun t tt e [.timer, .source]).promise = some (Try.exn e)
        ∧ (withinRun t tt e [.timer, .source]).fulfilledBy
            = some WithinEvent.timer)
    ∧ (∀ evs, (withinRun t tt e evs).fulfilCount ≤ 1)
    ∧ (∀ evs, evs ≠ [] → (withinRun t tt e evs).fulfilCount = 1) := by
  refine ⟨⟨?_, ?_⟩, ?_, ?_, ?_⟩
  · simp [withinRun, withinStep, withinInit]
  · simp [withinRun, withinStep, withinInit]
  · intro htt
    subst htt
    constructor <;> simp [withinRun, withinStep, withinInit]
  · intro evs
    cases evs with
    | nil => simp [withinRun, withinInit]
    | cons ev rest =>
      have hstep : (withinStep t tt e (withinInit α) ev).token = true ∧
          (withinStep t tt e (withinInit α) ev).fulfilCount = 1 := by
        cases ev <;> simp [withinStep, withinInit]
      rw [withinRun, List.foldl_cons,
        withinRun_token_frozen t tt e rest _ hstep.1]
      exact Nat.le_of_eq hstep.2
  · intro evs hne
    cases evs with
    | nil => exact absurd rfl hne
    | cons ev rest =>
      have hstep : (withinStep t tt e (withinInit α) ev).token = true ∧
          (withinStep t tt e (withinInit α) ev).fulfilCount = 1 := by
        cases ev <;> simp [withinStep, withinInit]
      rw [withinRun, List.foldl_cons,
        withinRun_token_frozen t tt e rest _ hstep.1]
      exact hstep.2

theorem within_spec_witness :
    (Try.val () = Try.val ())
    ∧ ((withinRun (Try.val (42 : Nat)) (Try.val ()) 9
          [WithinEvent.timer, WithinEvent.source]).promise
        = some (Try.exn 9)
      ∧ (withinRun (Try.val (42 : Nat)) (Try.val ()) 9
          [WithinEvent.timer, WithinEvent.source]).fulfilledBy
        = some WithinEvent.timer) :=
  ⟨rfl, (within_spec (Try.val (42 : Nat)) (Try.val ()) 9).2.1 rfl⟩

/-!
## collectN (iterator form), Future-inl.h lines 1496-1561

CollectNContext holds a vector v of m Optional<Try<T>>, atomic counters
completed and stored, and the promise.  If fewer futures than n are given,
the promise is fulfilled immediately with a runtime_error and no callbacks
are installed.  Otherwise each callback increments completed; completers
beyond the first n return early; the others store their Try at their input
index and increment stored; the completer that takes stored to n runs
complete(), which walks the vector in index order and emits the filled
(index, Try) pairs.
-/

structure CollectNSt (m : Nat) (α : Type) where
  completed : Nat
  stored : Nat
  slots : Fin m → Option (Try α)
  promise : Option (Try (List (Fin m × Try α)))

/-- CollectNContext::complete() (lines 1521-1531): collect the filled
slots in index order as (index, Try) pairs. -/
def collectNComplete {m : Nat} {α : Type} (slots : Fin m → Option (Try α)) :
    List (Fin m × Try α) :=
  (List.finRange m).filterMap (fun i => (slots i).map (fun t => (i, t)))

/-- Callback installed by collectN via mapSetCallback (lines 1543-1557). -/
def collectNStep {m : Nat} {α : Type} (res : Fin m → Try α) (nn : Nat)
    (st : CollectNSt m α) (i : Fin m) : CollectNSt m α :=
  -- auto const c = 1 + ctx->completed.fetch_add(1); if (c > n) return;
  let c := st.completed + 1
  if nn < c then { st with completed := c }
  else
    -- ctx->setPartialResult(i, std::move(t));
    let slots := Function.update st.slots i (some (res i))
    -- auto const s = 1 + ctx->stored.fetch_add(1); if (s < n) return;
    let s := st.stored + 1
    if s < nn then
      { completed := c, stored := s, slots := slots, promise := st.promise }
    else
      -- ctx->complete();
      { completed := c, stored := s, slots := slots,
        promise := some (Try.val (collectNComplete slots)) }

def collectNInit (m : Nat) (α : Type) : CollectNSt m α :=
  { completed := 0, stored := 0, slots := fun _ => none, promise := none }

def collectNRun {m : Nat} {α : Type} (res : Fin m → Try α) (nn : Nat)
    (order : List (Fin m)) : CollectNSt m α :=
  order.foldl (collectNStep res nn) (collectNInit m α)

/-- The exception code of the std::runtime_error("Not enough futures")
raised at line 1538. -/
def notEnoughFuturesCode : Nat := 100

/-- Outcome of the aggregate future of collectN, including the
numFutures < n short-circuit at lines 1537-1538. -/
def collectNOutcome {m : Nat} {α : Type} (res : Fin m → Try α) (nn : Nat)
    (order : List (Fin m)) : Option (Try (List (Fin m × Try α))) :=
  if m < nn then some (Try.exn notEnoughFuturesCode)
  else (collectNRun res nn order).promise

/-- Number of input futures that get a callback installed: zero on the
short-circuit branch, all of them otherwise (lines 1537-1557). -/
def collectNCallbacks (m nn : Nat) : Nat :=
  if m < nn then 0 else m

theorem collectN_inv {m : Nat} {α : Type} (res : Fin m → Try α) (nn : Nat)
    (hpos : 0 < nn) :
    ∀ order : List (Fin m),
      (collectNRun res nn order).completed = order.length
      ∧ (collectNRun res nn order).stored = min order.length nn
      ∧ (∀ i, (collectNRun res nn order).slots i
            = if i ∈ order.take nn then some (res i) else none)
      ∧ (collectNRun res nn order).promise
          = (if order.length < nn then none
             else some (Try.val (collectNComplete
                 (fun i => if i ∈ order.take nn then some (res i)
                           else none)))) := by
  intro order
  induction order using List.reverseRecOn with
  | nil =>
    refine ⟨rfl, by simp [collectNRun, collectNInit], ?_, ?_⟩
    · intro i; simp [collectNRun, collectNInit]
    · simp [collectNRun, collectNInit, hpos]
  | append_singleton order j ih =>
    obtain ⟨hc, hs, hsl, hp⟩ := ih
    have hrun : collectNRun res nn (order ++ [j])
        = collectNStep res nn (collectNRun res nn order) j := by
      simp [collectNRun, List.foldl_append]
    by_cases hk : order.length + 1 ≤ nn
    · -- this completer passes the gate and stores
      have hklt : order.length < nn := hk
      have htake : (order ++ [j]).take nn = order ++ [j] :=
        List.take_of_length_le (by simp; omega)
      have hstep : collectNStep res nn (collectNRun res nn order) j
          = (let slots := Function.update (collectNRun res nn order).slots j
               (some (res j))
             let s := (collectNRun res nn order).stored + 1
             if s < nn then
               { completed := (collectNRun res nn order).completed + 1,
                 stored := s, slots := slots,
                 promise := (collectNRun res nn order).promise }
             else
               { completed := (collectNRun res nn order).completed + 1,
                 stored := s, slots := slots,
                 promise := some (Try.val (collectNComplete slots)) }) := by
        unfold collectNStep
        rw [if_neg (by rw [hc]; omega)]
      have hsmin : (collectNRun res nn order).stored + 1 = order.length + 1 := by
        rw [hs]; omega
      have hslfun : Function.update (collectNRun res nn order).slots j
            (some (res j))
          = fun i => if i ∈ (order ++ [j]).take nn then some (res i)
                     else none := by
        funext i
        by_cases hij : i = j
        · subst hij
          rw [Function.update_same, htake]
          simp
        · rw [Function.update_noteq hij, hsl i, htake]
          have hiff : (i ∈ order.take nn) ↔ (i ∈ order ++ [j]) := by
            rw [List.take_of_length_le (by omega)]
            simp [hij]
          by_cases hm : i ∈ order ++ [j]
          · rw [if_pos (hiff.mpr hm), if_pos hm]
          · rw [if_neg (fun h => hm (hiff.mp h)), if_neg hm]
      by_cases hfull : order.length + 1 < nn
      · -- s < n: store and return
        rw [hrun, hstep]
        simp only [hsmin]
        rw [if_pos (by omega)]
        refine ⟨by simp [hc], by simp; omega, ?_, ?_⟩
        · intro i
          simp only [hslfun]
        · simp only [hp]
          rw [if_pos (by omega), if_pos (by simp; omega)]
      · -- s = n: store and complete
        have hseq : order.length + 1 = nn := by omega
        rw [hrun, hstep]
        simp only [hsmin]
        rw [if_neg (by omega)]
        refine ⟨by simp [hc], by simp; omega, ?_, ?_⟩
        · intro i
          simp only [hslfun]
        · rw [if_neg (by simp; omega)]
          rw [hslfun]
    · -- c > n: early return
      have htake : (order ++ [j]).take nn = order.take nn :=
        List.take_append_of_le_length (by omega)
      have hstep : collectNStep res nn (collectNRun res nn order) j
          = { collectNRun res nn order with
              completed := (collectNRun res nn order).completed + 1 } := by
        unfold collectNStep
        rw [if_pos (by rw [hc]; omega)]
      rw [hrun, hstep]
      refine ⟨by simp [hc], by simp [hs]; omega, ?_, ?_⟩
      · intro i
        simp only [hsl i, htake]
      · simp only [hp, htake]
        rw [if_neg (by omega), if_neg (by simp; omega)]

/-- The list emitted by complete() when exactly the futures in
order.take n were stored: the stored indices in ascending index order,
each paired with its input future's result. -/
def firstNResult {m : Nat} {α : Type} (res : Fin m → Try α) (nn : Nat)
    (order : List (Fin m)) : List (Fin m × Try α) :=
  ((List.finRange m).filter (fun i => i ∈ order.take nn)).map
    (fun i => (i, res i))

theorem filterMap_if_eq_map_filter {β γ : Type} (p : β → Prop)
    [DecidablePred p] (g : β → γ) :
    ∀ l : List β,
      l.filterMap (fun i => if p i then some (g i) else none)
        = (l.filter (fun i => decide (p i))).map g := by
  intro l
  induction l with
  | nil => rfl
  | cons a l ih =>
    by_cases ha : p a
    · simp [List.filterMap_cons, List.filter_cons, ha, ih]
    · simp [List.filterMap_cons, List.filter_cons, ha, ih]

theorem collectNComplete_indicator {m : Nat} {α : Type}
    (res : Fin m → Try α) (T : List (Fin m)) :
    collectNComplete (fun i => if i ∈ T then some (res i) else none)
      = ((List.finRange m).filter (fun i => i ∈ T)).map
          (fun i => (i, res i)) := by
  unfold collectNComplete
  have hfn : (fun i => Option.map (fun t => ((i : Fin m), t))
        (if i ∈ T then some (res i) else none))
      = fun i => if i ∈ T then some (i, res i) else none := by
    funext i
    by_cases hi : i ∈ T
    · simp [hi]
    · simp [hi]
  rw [hfn, filterMap_if_eq_map_filter (fun i => i ∈ T) (fun i => (i, res i))]

/-- C4: for every range of futures of size at least n (with n > 0),
collectN completes with a vector of exactly n pairs (index, Try), where
each index lies in [0, futures.size()) (enforced here by the Fin m index
type), the indices are pairwise distinct, and each Try is the result of the
input future at that index; exactly the first n completers (those passing
the completed < n gate) are stored, and the completer that takes the stored
counter from n-1 to n (the n-th completer of the schedule) emits the
result. -/
theorem collectN_spec {m : Nat} {α : Type} (res : Fin m → Try α) (nn : Nat)
    (order : List (Fin m)) (hpos : 0 < nn) (hnd : order.Nodup)
    (hlen : nn ≤ order.length) :
    collectNOutcome res nn order
        = some (Try.val (firstNResult res nn order))
    ∧ (firstNResult res nn order).length = nn
    ∧ ((firstNResult res nn order).map Prod.fst).Nodup
    ∧ (∀ p ∈ firstNResult res nn order, p.2 = res p.1)
    ∧ (∀ p ∈ firstNResult res nn order, p.1 ∈ order.take nn)
    ∧ (∀ i ∈ order.take nn, (i, res i) ∈ firstNResult res nn order)
    ∧ (collectNRun res nn (order.take (nn - 1))).promise = none
    ∧ (collectNRun res nn (order.take nn)).promise
        = some (Try.val (firstNResult res nn order)) := by
  have hmle : order.length ≤ m := by
    have := hnd.length_le_card
    simpa [Fintype.card_fin] using this
  have hT : (order.take nn).Nodup := List.Nodup.sublist
    (List.take_sublist nn order) hnd
  have hTlen : (order.take nn).length = nn := by
    rw [List.length_take]; omega
  refine ⟨?_, ?_, ?_, ?_, ?_, ?_, ?_, ?_⟩
  · unfold collectNOutcome
    rw [if_neg (by omega)]
    rw [(collectN_inv res nn hpos order).2.2.2,
      if_neg (by omega), collectNComplete_indicator]
    rfl
  · have hfn : ((List.finRange m).filter
        (fun i => decide (i ∈ order.take nn))).Nodup :=
      (List.nodup_finRange m).filter _
    have hset : ((List.finRange m).filter
          (fun i => decide (i ∈ order.take nn))).toFinset
        = (order.take nn).toFinset := by
      ext x
      simp [List.mem_filter]
    unfold firstNResult
    rw [List.length_map, ← List.toFinset_card_of_nodup hfn, hset,
      List.toFinset_card_of_nodup hT, hTlen]
  · unfold firstNResult
    rw [List.map_map]
    have : (Prod.fst ∘ fun i => ((i : Fin m), res i)) = id := by
      funext i; rfl
    rw [this, List.map_id]
    exact (List.nodup_finRange m).filter _
  · intro p hp
    unfold firstNResult at hp
    simp only [List.mem_map, List.mem_filter] at hp
    obtain ⟨i, _, rfl⟩ := hp
    rfl
  · intro p hp
    unfold firstNResult at hp
    simp only [List.mem_map, List.mem_filter] at hp
    obtain ⟨i, hi, rfl⟩ := hp
    simpa using hi.2
  · intro i hi
    unfold firstNResult
    simp only [List.mem_map, List.mem_filter]
    exact ⟨i, ⟨List.mem_finRange i, by simpa using hi⟩, rfl⟩
  · rw [(collectN_inv res nn hpos (order.take (nn - 1))).2.2.2,
      if_pos (by rw [List.length_take]; omega)]
  · rw [(collectN_inv res nn hpos (order.take nn)).2.2.2,
      if_neg (by rw [List.length_take]; omega)]
    rw [List.take_take, collectNComplete_indicator]
    have hmin : min nn nn = nn := by omega
    rw [hmin]
    rfl

theorem collectN_spec_witness :
    (0 < 2) ∧ ([2, 0, 1] : List (Fin 3)).Nodup
    ∧ (2 ≤ ([2, 0, 1] : List (Fin 3)).length)
    ∧ collectNOutcome ![Try.val (1 : Nat), Try.exn 5, Try.val 7] 2 [2, 0, 1]
        = some (Try.val
            (firstNResult ![Try.val (1 : Nat), Try.exn 5, Try.val 7] 2
              [2, 0, 1])) :=
  ⟨by decide, by decide, by decide,
    (collectN_spec ![Try.val (1 : Nat), Try.exn 5, Try.val 7] 2 [2, 0, 1]
      (by decide) (by decide) (by decide)).1⟩

/-- C10: for every range of input futures of length m and every requested
count n with m < n, collectN immediately completes the returned future with
an error (a runtime error reading "Not enough futures") without installing
callbacks on or waiting for any input future. -/
theorem collectN_not_enough {m : Nat} {α : Type} (res : Fin m → Try α)
    (nn : Nat) (order : List (Fin m)) (h : m < nn) :
    collectNOutcome res nn order = some (Try.exn notEnoughFuturesCode)
    ∧ collectNCallbacks m nn = 0 := by
  unfold collectNOutcome collectNCallbacks
  rw [if_pos h, if_pos h]
  exact ⟨rfl, rfl⟩

theorem collectN_not_enough_witness :
    (1 < 2)
    ∧ collectNOutcome ![Try.val (4 : Nat)] 2 []
        = some (Try.exn notEnoughFuturesCode)
    ∧ collectNCallbacks 1 2 = 0 :=
  ⟨by decide, (collectN_not_enough ![Try.val (4 : Nat)] 2 [] (by decide)).1,
    (collectN_not_enough ![Try.val (4 : Nat)] 2 [] (by decide)).2⟩

/-!
## reduce (iterator form), Future-inl.h lines 1565-1597

reduce is a sequential fold.  For an empty range it returns
makeFuture(initial).  Otherwise the first chained future applies
func(initial, head); each following step chains
collectAllSemiFuture(f, *first).then(func(acc, next)) in input order.
When func takes a plain value, head.get / get<0>(t).value() rethrow a
stored exception, so an error in the accumulator propagates first, then an
error in the next input; otherwise func is applied to the two values.
-/

/-- One chained step of reduce: the continuation of
collectAllSemiFuture(f, *first).then(...) at lines 1586-1593 (and, with
acc = Try.val initial, the head step at lines 1579-1583). -/
def reduceStep {α β : Type} (op : β → α → β) : Try β → Try α → Try β
  | .exn e, _ => .exn e
  | .val _, .exn e => .exn e
  | .val b, .val a => .val (op b a)

/-- The value of the future returned by reduce over ready input futures
carrying the Trys ts. -/
def reduceF {α β : Type} (ts : List (Try α)) (z : β) (op : β → α → β) :
    Try β :=
  match ts with
  | [] => .val z
  | h :: rest => rest.foldl (reduceStep op) (reduceStep op (.val z) h)

/-- C6: reduce over a range of futures is a left-to-right sequential fold:
each step chains a new future applying func(acc, next) in input order; in
particular, for the ready futures carrying 1,2,3,4,5 with initial value 0
and integer addition, the resulting future completes with the value 15. -/
theorem reduce_spec :
    (∀ (α β : Type) (ts : List (Try α)) (z : β) (op : β → α → β),
        reduceF ts z op = ts.foldl (reduceStep op) (Try.val z))
    ∧ reduceF [Try.val 1, Try.val 2, Try.val 3, Try.val 4, Try.val 5]
        (0 : Nat) Nat.add = Try.val 15 := by
  constructor
  · intro α β ts z op
    cases ts with
    | nil => rfl
    | cons h rest => rfl
  · rfl

/-!
## unorderedReduce (iterator form), Future-inl.h lines 1684-1759

UnorderedReduceContext holds a memo future (seeded with
makeFuture(initial)), func, numThens, numFutures and the final promise.
Each completing input future, under the spinlock, exchanges memo for a
fresh pending future and chains its reduction step onto the old memo; the
completer that makes numThens == numFutures arms the final forwarding of
memo into the promise.  Thus the reductions are linearized in completion
order: the value the memo chain resolves to after the k-th completion is
the reduceStep fold of the first k completers' Trys over the initial
value.  The callback chained at lines 1738-1755 computes exactly
reduceStep: a memo error forwards as-is (mp.setTry(v)); with a value memo,
mt.get rethrows an error of the completer's Try, otherwise func is
applied.
-/

/-- Value the memo chain resolves to after the callbacks in the schedule
completed, reducing in completion order. -/
def unorderedReduceMemo {n : Nat} {α β : Type} (res : Fin n → Try α)
    (z : β) (op : β → α → β) (order : List (Fin n)) : Try β :=
  order.foldl (fun m i => reduceStep op m (res i)) (.val z)

/-- Outcome of the future returned by unorderedReduce: the promise is
fulfilled with the memo chain's result once numThens == numFutures, i.e.
once every input future's callback has run (for n = 0 the code returns
makeFuture(initial) directly, which the empty schedule also yields). -/
def unorderedReduceOutcome {n : Nat} {α β : Type} (res : Fin n → Try α)
    (z : β) (op : β → α → β) (order : List (Fin n)) : Option (Try β) :=
  if (∀ i, i ∈ order) then some (unorderedReduceMemo res z op order)
  else none

theorem unorderedReduceMemo_vals {n : Nat} {β : Type} (op : β → β → β)
    (vals : Fin n → β) (z : β) :
    ∀ order : List (Fin n),
      unorderedReduceMemo (fun i => Try.val (vals i)) z op order
        = Try.val (order.foldl (fun b i => op b (vals i)) z) := by
  intro order
  suffices h : ∀ (l : List (Fin n)) (b : β),
      l.foldl (fun m i => reduceStep op m (Try.val (vals i))) (Try.val b)
        = Try.val (l.foldl (fun b i => op b (vals i)) b) by
    exact h order z
  intro l
  induction l with
  | nil => intro b; rfl
  | cons j rest ih =>
    intro b
    rw [List.foldl_cons, List.foldl_cons]
    exact ih (op b (vals j))

/-- C5: for every finite list of futures f1..fn, initial value z, and
operator op that is commutative and associative, unorderedReduce completes
with the same value as the sequential reduce of the same inputs with the
same z and op, regardless of the order in which the input futures
complete. -/
theorem unorderedReduce_eq_reduce {n : Nat} {β : Type} (op : β → β → β)
    (vals : Fin n → β) (z : β) (order : List (Fin n))
    (hcomm : ∀ a b, op a b = op b a)
    (hassoc : ∀ a b c, op (op a b) c = op a (op b c))
    (hperm : order.Perm (List.finRange n)) :
    unorderedReduceOutcome (fun i => Try.val (vals i)) z op order
      = some (reduceF ((List.finRange n).map (fun i => Try.val (vals i)))
          z op) := by
  have hall : ∀ i, i ∈ order := fun i =>
    (hperm.mem_iff).mpr (List.mem_finRange i)
  unfold unorderedReduceOutcome
  rw [if_pos hall, unorderedReduceMemo_vals]
  have hred : reduceF ((List.finRange n).map (fun i => Try.val (vals i)))
        z op
      = Try.val ((List.finRange n).foldl (fun b i => op b (vals i)) z) := by
    have hmemo := unorderedReduceMemo_vals op vals z (List.finRange n)
    unfold unorderedReduceMemo at hmemo
    rw [(reduce_spec.1 β β ((List.finRange n).map
        (fun i => Try.val (vals i))) z op), List.foldl_map]
    exact hmemo
  rw [hred]
  have hfold : order.foldl (fun b i => op b (vals i)) z
      = (List.finRange n).foldl (fun b i => op b (vals i)) z := by
    refine hperm.foldl_eq' ?_ z
    intro x _ y _ b
    rw [hassoc, hcomm (vals x) (vals y), ← hassoc]
  rw [hfold]

theorem unorderedReduce_eq_reduce_witness :
    (∀ a b : Nat, a * b = b * a)
    ∧ (∀ a b c : Nat, a * b * c = a * (b * c))
    ∧ ([2, 0, 1] : List (Fin 3)).Perm (List.finRange 3)
    ∧ unorderedReduceOutcome
        (fun i => Try.val (![2, 3, 4] i)) (5 : Nat) Nat.mul [2, 0, 1]
      = some (reduceF ((List.finRange 3).map
          (fun i => Try.val (![2, 3, 4] i))) 5 Nat.mul) :=
  ⟨Nat.mul_comm, Nat.mul_assoc, by decide,
    unorderedReduce_eq_reduce Nat.mul ![2, 3, 4] 5 [2, 0, 1]
      Nat.mul_comm Nat.mul_assoc (by decide)⟩


/-!
## collectAnyWithoutException (iterator form), Future-inl.h lines 1465-1492

CollectAnyWithoutExceptionContext holds an atomic done flag, an atomic
nFulfilled counter, nTotal and the promise.  Each callback: a completer
with a value that wins done.exchange(true) fulfils with (index, value);
every other completer (all error completers — which never touch done — and
value completers that lost the race) increments nFulfilled, and the one
that brings it to nTotal fulfils with t.exception().
-/

structure AnyWESt (n : Nat) (α : Type) where
  done : Bool
  nFulfilled : Nat
  promise : Option (Try (Fin n × α))
  fulfilCount : Nat

def anyWEInit (n : Nat) (α : Type) : AnyWESt n α :=
  ⟨false, 0, none, 0⟩

/-- Callback installed via mapSetCallback (lines 1484-1490).  Note the
short-circuit of the condition
`!t.hasException() && !ctx->done.exchange(true)`: an error completer never
performs the exchange, so done is only ever set by a value completer. -/
def anyWEStep {n : Nat} {α : Type} (res : Fin n → Try α) :
    AnyWESt n α → Fin n → AnyWESt n α
  | ⟨d, nf, pr, fc⟩, i =>
    match res i with
    | .val v =>
        if d then
          -- lost the race: else if (++ctx->nFulfilled == ctx->nTotal)
          --   p.setException(t.exception())  [t holds a value here]
          if nf + 1 = n then
            ⟨d, nf + 1, some (Try.exn ((Try.val v).exception)), fc + 1⟩
          else ⟨d, nf + 1, pr, fc⟩
        else
          -- !t.hasException() && !done.exchange(true): fulfil with the pair
          ⟨true, nf, some (Try.val (i, v)), fc + 1⟩
    | .exn e =>
        if nf + 1 = n then ⟨d, nf + 1, some (Try.exn e), fc + 1⟩
        else ⟨d, nf + 1, pr, fc⟩

def anyWERun {n : Nat} {α : Type} (res : Fin n → Try α)
    (order : List (Fin n)) : AnyWESt n α :=
  order.foldl (anyWEStep res) (anyWEInit n α)

theorem anyWE_all_errors_below {n : Nat} {α : Type} (res : Fin n → Try α) :
    ∀ (l : List (Fin n)) (nf : Nat) (pr : Option (Try (Fin n × α)))
      (fc : Nat),
      (∀ i ∈ l, (res i).hasException = true) → nf + l.length < n →
      l.foldl (anyWEStep res) ⟨false, nf, pr, fc⟩
        = ⟨false, nf + l.length, pr, fc⟩ := by
  intro l
  induction l with
  | nil => intro nf pr fc _ _; rfl
  | cons j rest ih =>
    intro nf pr fc hexn hlt
    have hlt' : nf + rest.length + 1 < n := by
      rw [List.length_cons] at hlt
      omega
    cases hres : res j with
    | val v =>
      have hx := hexn j (List.mem_cons_self j rest)
      rw [hres] at hx
      simp [Try.hasException] at hx
    | exn e =>
      have hstep : anyWEStep res ⟨false, nf, pr, fc⟩ j
          = ⟨false, nf + 1, pr, fc⟩ := by
        unfold anyWEStep
        dsimp only
        rw [hres]
        exact if_neg (by omega)
      rw [List.foldl_cons, hstep,
        ih (nf + 1) pr fc (fun i hi => hexn i (List.mem_cons_of_mem j hi))
          (by omega)]
      rw [List.length_cons]
      congr 1
      omega

theorem anyWE_after_winner {n : Nat} {α : Type} (res : Fin n → Try α) :
    ∀ (l : List (Fin n)) (nf : Nat) (pr : Option (Try (Fin n × α)))
      (fc : Nat),
      nf + l.length < n →
      l.foldl (anyWEStep res) ⟨true, nf, pr, fc⟩
        = ⟨true, nf + l.length, pr, fc⟩ := by
  intro l
  induction l with
  | nil => intro nf pr fc _; rfl
  | cons j rest ih =>
    intro nf pr fc hlt
    have hlt' : nf + rest.length + 1 < n := by
      rw [List.length_cons] at hlt
      omega
    have hstep : anyWEStep res ⟨true, nf, pr, fc⟩ j
        = ⟨true, nf + 1, pr, fc⟩ := by
      unfold anyWEStep
      dsimp only
      cases res j with
      | val v =>
        dsimp only
        rw [if_pos rfl]
        exact if_neg (by omega)
      | exn e =>
        dsimp only
        exact if_neg (by omega)
    rw [List.foldl_cons, hstep, ih (nf + 1) pr fc (by omega),
      List.length_cons]
    congr 1
    omega

theorem anyWE_all_errors_total {n : Nat} {α : Type} (res : Fin n → Try α) :
    ∀ (l : List (Fin n)) (hne : l ≠ []) (nf : Nat)
      (pr : Option (Try (Fin n × α))) (fc : Nat),
      (∀ i ∈ l, (res i).hasException = true) → nf + l.length = n →
      l.foldl (anyWEStep res) ⟨false, nf, pr, fc⟩
        = ⟨false, n, some (Try.exn ((res (l.getLast hne)).exception)),
            fc + 1⟩ := by
  intro l
  induction l with
  | nil => intro hne _ _ _ _ _; exact absurd rfl hne
  | cons j rest ih =>
    intro hne nf pr fc hexn htot
    cases hres : res j with
    | val v =>
      have hx := hexn j (List.mem_cons_self j rest)
      rw [hres] at hx
      simp [Try.hasException] at hx
    | exn e =>
      cases rest with
      | nil =>
        have htot1 : nf + 1 = n := by
          rw [List.length_cons, List.length_nil] at htot
          omega
        have hstep : anyWEStep res ⟨false, nf, pr, fc⟩ j
            = ⟨false, nf + 1, some (Try.exn e), fc + 1⟩ := by
          unfold anyWEStep
          dsimp only
          rw [hres]
          exact if_pos htot1
        rw [List.foldl_cons, hstep, List.foldl_nil, htot1]
        have hlast : (res ([j].getLast hne)).exception = e := by
          rw [List.getLast_singleton, hres]
          rfl
        rw [hlast]
      | cons r rs =>
        have hrne : r :: rs ≠ [] := by simp
        have htot' : (nf + 1) + (r :: rs).length = n := by
          rw [List.length_cons] at htot
          omega
        have hlt1 : ¬ (nf + 1 = n) := by
          rw [List.length_cons] at htot'
          omega
        have hstep : anyWEStep res ⟨false, nf, pr, fc⟩ j
            = ⟨false, nf + 1, pr, fc⟩ := by
          unfold anyWEStep
          dsimp only
          rw [hres]
          exact if_neg hlt1
        rw [List.foldl_cons, hstep,
          ih hrne (nf + 1) pr fc
            (fun i hi => hexn i (List.mem_cons_of_mem j hi)) htot']
        have hlast : (j :: r :: rs).getLast hne = (r :: rs).getLast hrne :=
          List.getLast_cons hrne
        rw [hlast]

theorem find?_decomp {β : Type} (p : β → Bool) :
    ∀ (l : List β) (w : β), l.find? p = some w →
      ∃ pre post, l = pre ++ w :: post ∧ (∀ x ∈ pre, p x = false) := by
  intro l
  induction l with
  | nil => intro w h; simp at h
  | cons a l ih =>
    intro w h
    by_cases hpa : p a
    · rw [List.find?_cons_of_pos l hpa] at h
      obtain rfl : a = w := by injection h
      exact ⟨[], l, rfl, by intro x hx; simp at hx⟩
    · rw [List.find?_cons_of_neg l hpa] at h
      obtain ⟨pre, post, hsplit, hpre⟩ := ih w h
      refine ⟨a :: pre, post, by rw [hsplit]; rfl, ?_⟩
      intro x hx
      rcases List.mem_cons.mp hx with hxa | hxp
      · subst hxa
        simpa using hpa
      · exact hpre x hxp

/-- C7: for every list of futures, collectAnyWithoutException completes
with the pair (index, value) of the first input that completes with a
value (errors do not win the race), and when every input completes with an
error it completes with the error of the last input to complete; the
aggregate promise is fulfilled exactly once in either case. -/
theorem collectAnyWE_spec {n : Nat} {α : Type} (res : Fin n → Try α)
    (order : List (Fin n)) (hperm : order.Perm (List.finRange n)) :
    (∀ w, order.find? (fun i => (res i).hasValue) = some w →
        ∀ v, res w = Try.val v →
          (anyWERun res order).promise = some (Try.val (w, v))
          ∧ (anyWERun res order).fulfilCount = 1)
    ∧ ((∀ i, (res i).hasException = true) →
        ∀ hne : order ≠ [],
          (anyWERun res order).promise
            = some (Try.exn ((res (order.getLast hne)).exception))
          ∧ (anyWERun res order).fulfilCount = 1) := by
  have hlen : order.length = n := by
    rw [hperm.length_eq, List.length_finRange]
  constructor
  · intro w hfind v hres
    obtain ⟨pre, post, horder, hpre⟩ :=
      find?_decomp (fun i => (res i).hasValue) order w hfind
    have hpreexn : ∀ i ∈ pre, (res i).hasException = true := by
      intro i hi
      have := hpre i hi
      cases hri : res i with
      | val x => rw [hri] at this; simp [Try.hasValue] at this
      | exn e => rfl
    have hcount : pre.length + 1 + post.length = n := by
      rw [horder] at hlen
      rw [List.length_append, List.length_cons] at hlen
      omega
    have hrun : anyWERun res order
        = (w :: post).foldl (anyWEStep res)
            (pre.foldl (anyWEStep res) (anyWEInit n α)) := by
      rw [anyWERun, horder, List.foldl_append]
    have hpre_run : pre.foldl (anyWEStep res) (anyWEInit n α)
        = ⟨false, pre.length, none, 0⟩ := by
      have := anyWE_all_errors_below res pre 0 none 0 hpreexn (by omega)
      rw [anyWEInit, this, Nat.zero_add]
    have hwin : anyWEStep res ⟨false, pre.length, none, 0⟩ w
        = ⟨true, pre.length, some (Try.val (w, v)), 1⟩ := by
      unfold anyWEStep
      dsimp only
      rw [hres]
      dsimp only
      rw [if_neg Bool.false_ne_true]
    have hfinal : (w :: post).foldl (anyWEStep res)
          ⟨false, pre.length, none, 0⟩
        = ⟨true, pre.length + post.length, some (Try.val (w, v)), 1⟩ := by
      rw [List.foldl_cons, hwin,
        anyWE_after_winner res post pre.length _ 1 (by omega)]
    rw [hrun, hpre_run, hfinal]
    exact ⟨rfl, rfl⟩
  · intro hexn hne
    have hrun := anyWE_all_errors_total res order hne 0 none 0
      (fun i _ => hexn i) (by omega)
    rw [anyWERun, anyWEInit, hrun]
    exact ⟨rfl, rfl⟩

theorem collectAnyWE_spec_witness :
    ([0, 1] : List (Fin 2)).Perm (List.finRange 2)
    ∧ ([0, 1] : List (Fin 2)).find?
        (fun i => (![Try.exn 4, Try.val (9 : Nat)] i).hasValue) = some 1
    ∧ ![Try.exn 4, Try.val (9 : Nat)] 1 = Try.val 9
    ∧ (anyWERun ![Try.exn 4, Try.val (9 : Nat)] [0, 1]).promise
        = some (Try.val (1, 9))
    ∧ (anyWERun ![Try.exn 4, Try.val (9 : Nat)] [0, 1]).fulfilCount = 1 :=
  ⟨by decide, by decide, by decide,
    ((collectAnyWE_spec ![Try.exn 4, Try.val (9 : Nat)] [0, 1]
        (by decide)).1 1 (by decide) 9 (by decide)).1,
    ((collectAnyWE_spec ![Try.exn 4, Try.val (9 : Nat)] [0, 1]
        (by decide)).1 1 (by decide) 9 (by decide)).2⟩

/-!
## DeferredExecutor, Future-inl.h lines 491-641, and SemiFuture::wait,
lines 1913-1924

The placeholder is a CAS-driven five-state machine.  We model its state
word, whether the stored function is still held, and the effect of each
operation.  add() is the Core dispatching the continuation (lines
493-532); setExecutor() is via() attaching a real executor (lines
534-548); wait(duration) is the timed blocking wait (lines 595-627).  The
timed wait is modelled over an abstract arrival of the dispatch relative
to the wait: during the baton wait, between the baton timeout and the
cancelling CAS, or never (within the wait); the deadline itself is
abstracted into this arrival datum.
-/

inductive DexState where
  | empty : DexState
  | hasFunction : DexState
  | hasExecutor : DexState
  | hasBaton : DexState
  | detached : DexState
  | destroyed : DexState
deriving DecidableEq, Repr

inductive DexEffect where
  | ranInline : DexEffect    -- func() run on the caller's stack
  | enqueued : DexEffect     -- executor_->add([this] { runAndDestroy(); })
  | dropped : DexEffect      -- func_ = nullptr; delete this
  | stored : DexEffect       -- func_ kept for a later rendezvous
  | storedPosted : DexEffect -- func_ kept and the waiter's baton posted
  | noEffect : DexEffect
deriving DecidableEq, Repr

/-- DeferredExecutor::add (lines 493-532). -/
def dexAdd : DexState → DexState × DexEffect
  | .hasFunction => (.hasFunction, .ranInline)
  | .hasExecutor => (.hasFunction, .enqueued)
  | .detached => (.destroyed, .dropped)
  | .hasBaton => (.hasFunction, .storedPosted)
  | s => (if s = .empty then .hasFunction else s,
          if s = .empty then .stored else .noEffect)

/-- DeferredExecutor::setExecutor (lines 534-548). -/
def dexSetExecutor : DexState → DexState × DexEffect
  | .hasFunction => (.hasFunction, .enqueued)
  | _ => (.hasExecutor, .noEffect)

/-- DeferredExecutor::runAndDestroy (lines 550-554). -/
def dexRunAndDestroy : DexState → DexState × DexEffect
  | _ => (.destroyed, .ranInline)

/-- When, relative to the timed wait, the Core dispatches the continuation
into the placeholder (i.e. when add() runs). -/
inductive DexArrival where
  | duringWait : DexArrival          -- while blocked on the baton
  | betweenTimeoutAndCas : DexArrival -- after the timeout, before the CAS
  | never : DexArrival               -- not within the wait at all
deriving DecidableEq, Repr

/-- DeferredExecutor::wait(Duration) (lines 595-627): from the entry state
s, return the placeholder state at return together with the returned Bool
(true = the function arrived).  Entry asserts s is EMPTY or HAS_FUNCTION. -/
def dexTimedWait (s : DexState) (arr : DexArrival) : DexState × Bool :=
  match s with
  | .hasFunction => (.hasFunction, true)  -- first CAS loop returns true
  | _ =>
    -- CAS EMPTY -> HAS_BATON, then baton->try_wait_for(duration)
    match arr with
    | .duringWait =>
        -- add(): HAS_BATON -> HAS_FUNCTION and baton posted, wait succeeds
        ((dexAdd .hasBaton).1, true)
    | .betweenTimeoutAndCas =>
        -- try_wait_for times out; add() runs before the re-read, which
        -- then sees HAS_FUNCTION and returns true
        ((dexAdd .hasBaton).1, true)
    | .never =>
        -- try_wait_for times out; second CAS loop: HAS_BATON -> EMPTY
        (.empty, false)

/-- SemiFuture::wait(Duration) with an armed DeferredExecutor (lines
1913-1924): on a true timed wait, runAndDestroy runs the chain; on false
the future is left not ready. -/
def semiFutureTimedWait (s : DexState) (arr : DexArrival) :
    DexState × Bool :=
  let r := dexTimedWait s arr
  if r.2 then ((dexRunAndDestroy r.1).1, true) else (r.1, false)

/-- C8: for a SemiFuture whose DeferredExecutor placeholder is armed, a
timed wait(duration) that expires before the continuation is dispatched
transitions the placeholder from HAS_BATON back to EMPTY and returns with
the future not ready, leaving the placeholder reusable so the chain still
runs when an executor or waiter later attaches; if dispatch arrives before
or during the timeout it returns ready instead. -/
theorem deferredExecutor_timed_wait_spec :
    (dexTimedWait .empty .never = (.empty, false))
    ∧ (∀ arr, dexTimedWait .hasFunction arr = (.hasFunction, true))
    ∧ (dexTimedWait .empty .duringWait = (.hasFunction, true))
    ∧ (dexTimedWait .empty .betweenTimeoutAndCas = (.hasFunction, true))
    ∧ (dexAdd .empty = (.hasFunction, .stored)
        ∧ dexSetExecutor .hasFunction = (.hasFunction, .enqueued))
    ∧ (dexSetExecutor .empty = (.hasExecutor, .noEffect)
        ∧ dexAdd .hasExecutor = (.hasFunction, .enqueued))
    ∧ (∀ arr, dexTimedWait ((dexTimedWait .empty .never).1) arr
          = dexTimedWait .empty arr)
    ∧ (∀ arr, arr ≠ .never →
        (semiFutureTimedWait .empty arr).2 = true
        ∧ (semiFutureTimedWait .empty arr).1 = .destroyed) := by
  refine ⟨rfl, ?_, rfl, rfl, ⟨rfl, rfl⟩, ⟨rfl, rfl⟩, ?_, ?_⟩
  · intro arr; rfl
  · intro arr; rfl
  · intro arr harr
    cases arr with
    | duringWait => exact ⟨rfl, rfl⟩
    | betweenTimeoutAndCas => exact ⟨rfl, rfl⟩
    | never => exact absurd rfl harr

theorem deferredExecutor_timed_wait_spec_witness :
    (DexArrival.duringWait ≠ DexArrival.never)
    ∧ (semiFutureTimedWait .empty .duringWait).2 = true :=
  ⟨by decide,
    (deferredExecutor_timed_wait_spec.2.2.2.2.2.2.2 .duringWait
      (by decide)).1⟩

/-!
## via, Future-inl.h lines 789-811 and 949-961

SemiFuture::via (lines 789-806) throws FutureNoExecutor when the KeepAlive
is empty (a null executor), then promotes to a Future carrying the
executor.  Future::via on an rvalue (lines 949-961) performs no null
check: it stores the given executor into the core as-is and rebinds (the
lvalue overload at lines 963-979 explicitly bypasses the SemiFuture::via
check, per the comment there).  Executors are modelled by an optional
identity; a null Executor* maps to an empty KeepAlive.
-/

inductive FutureErrorKind where
  | noExecutor : FutureErrorKind
deriving DecidableEq, Repr

/-- SemiFuture::via(KeepAlive, priority): the executor the returned Future
is bound to, or the thrown error. -/
def semiFutureVia (executor : Option Nat) :
    Except FutureErrorKind (Option Nat) :=
  if executor.isNone then .error .noExecutor
  else .ok executor

/-- Future::via(KeepAlive, priority) on an rvalue: no check, binds the
executor as given. -/
def futureVia (executor : Option Nat) :
    Except FutureErrorKind (Option Nat) :=
  .ok executor

/-- C9 counterexample: the claim says via with a null executor fails with
NoExecutor for every future or semifuture, but Future::via performs no
null check: at the concrete input of a null executor it succeeds, binding
the null executor. -/
theorem futureVia_null_no_error :
    futureVia none ≠ Except.error FutureErrorKind.noExecutor
    ∧ futureVia none = Except.ok none := by
  exact ⟨by simp [futureVia], rfl⟩

/-- C9 (amended): calling SemiFuture::via with a null executor fails with
the NoExecutor error; Future::via performs no such check and silently
binds the given (possibly null) executor. -/
theorem via_null_executor_spec :
    semiFutureVia none = Except.error FutureErrorKind.noExecutor
    ∧ (∀ e, futureVia e = Except.ok e) := by
  exact ⟨rfl, fun e => rfl⟩
